import Mathlib

/-!
Verification of the worker shift scheduling core of `run_schedule`
(src/streamlit.py, lines 51-150).

The program builds a CP-SAT model: one boolean variable per
(worker, day, shift) triple; an exactly-one coverage constraint per
(day, shift) slot; an at-most-one exclusivity constraint per (worker, day);
a per-worker fairness band on the weekly shift count; and an objective that
maximizes the number of assigned triples that were requested.  After the
solve, a roster table is extracted from the assignment (only when the status
is OPTIMAL).

We embed the model shallowly: an assignment is a boolean function on
`Fin W × Fin 7 × Fin S`, the constraints become decidable predicates, and the
objective becomes the corresponding finite sum.  The external solving engine
(OR-Tools CP-SAT) is not part of the repository; its contract is modelled
from the spec as a predicate on tagged solve results.
-/

/-- `num_days` in `run_schedule` (src/streamlit.py line 61): the fixed weekly horizon. -/
abbrev numDays : Nat := 7

/-- One boolean decision variable per (worker, day, shift) triple:
`shifts[(n, d, s)]` in `run_schedule` (lines 72-76). -/
abbrev Assignment (W S : Nat) := Fin W → Fin numDays → Fin S → Bool

/-- The preference matrix `shift_requests[n][d][s]` (line 28): one boolean per
(worker, day, shift) cell. -/
abbrev Requests (W S : Nat) := Fin W → Fin numDays → Fin S → Bool

/-- Coverage constraint (lines 79-81): for every (day, shift) slot, exactly one of
the `W` variables sharing that slot is true (`model.AddExactlyOne`). -/
abbrev coverage (W S : Nat) (a : Assignment W S) : Prop :=
  ∀ (d : Fin numDays) (s : Fin S),
    (Finset.univ.filter (fun n : Fin W => a n d s = true)).card = 1

/-- Exclusivity constraint (lines 84-86): for every (worker, day) pair, at most one
of the `S` variables sharing that pair is true (`model.AddAtMostOne`). -/
abbrev exclusivity (W S : Nat) (a : Assignment W S) : Prop :=
  ∀ (n : Fin W) (d : Fin numDays),
    (Finset.univ.filter (fun s : Fin S => a n d s = true)).card ≤ 1

/-- `min_shifts_per_worker = (num_shifts * num_days) // num_workers` (line 92). -/
def min_shifts_per_worker (W S : Nat) : Nat := S * numDays / W

/-- `max_shifts_per_worker` (lines 93-96): equal to the minimum when the total
slot count divides evenly, one more otherwise. -/
def max_shifts_per_worker (W S : Nat) : Nat :=
  if S * numDays % W = 0 then min_shifts_per_worker W S
  else min_shifts_per_worker W S + 1

/-- `num_shifts_worked` for worker `n` (lines 98-101): the sum of that worker's
variables over the whole week. -/
def numShiftsWorked (W S : Nat) (a : Assignment W S) (n : Fin W) : Nat :=
  ∑ d : Fin numDays, ∑ s : Fin S, (if a n d s then 1 else 0)

/-- Fairness constraint (lines 97-103): every worker's weekly shift count lies in
`[min_shifts_per_worker, max_shifts_per_worker]` inclusive. -/
abbrev fairness (W S : Nat) (a : Assignment W S) : Prop :=
  ∀ n : Fin W, min_shifts_per_worker W S ≤ numShiftsWorked W S a n ∧
    numShiftsWorked W S a n ≤ max_shifts_per_worker W S

/-- An assignment satisfying all three constraint families of the model. -/
abbrev feasible (W S : Nat) (a : Assignment W S) : Prop :=
  coverage W S a ∧ exclusivity W S a ∧ fairness W S a

/-- The objective expression (lines 106-113):
`sum of shift_requests[n][d][s] * shifts[(n, d, s)]` over all triples. -/
def objective (W S : Nat) (req : Requests W S) (a : Assignment W S) : Nat :=
  ∑ n : Fin W, ∑ d : Fin numDays, ∑ s : Fin S,
    (if req n d s then 1 else 0) * (if a n d s then 1 else 0)

/-- The count of assigned (worker, day, shift) triples whose preference cell is
true: the quantity the spec says `objectiveValue` reports. -/
def satisfiedCount (W S : Nat) (req : Requests W S) (a : Assignment W S) : Nat :=
  (Finset.univ.filter
    (fun t : Fin W × Fin numDays × Fin S =>
      a t.1 t.2.1 t.2.2 = true ∧ req t.1 t.2.1 t.2.2 = true)).card

/-- Tagged solve outcome, as classified by the status check on line 119 and the
spec's SolvingEngine contract. -/
inductive SolveResult (W S : Nat) where
  | Optimal (assignment : Assignment W S) (objectiveValue : Nat)
  | Feasible (assignment : Assignment W S) (objectiveValue : Nat)
  | Infeasible
  | Unknown

/-- Modelled from the spec: the SolvingEngine of spec section 4.4 is an external
collaborator (OR-Tools CP-SAT, not part of this repository); this predicate is its
contract.  `Optimal` carries a feasible assignment whose objective value no
feasible assignment beats; `Feasible` carries a feasible assignment and its
objective value; `Infeasible` asserts no assignment satisfies the constraints;
`Unknown` asserts nothing (inconclusive search). -/
def solverOk (W S : Nat) (req : Requests W S) : SolveResult W S → Prop
  | .Optimal a v => feasible W S a ∧ v = objective W S req a ∧
      ∀ b, feasible W S b → objective W S req b ≤ objective W S req a
  | .Feasible a v => feasible W S a ∧ v = objective W S req a
  | .Infeasible => ∀ b, ¬ feasible W S b
  | .Unknown => True

/-- A populated roster cell: the worker label written into `df[d][s]`
(line 131) together with the requested / not-requested classification made on
line 127. -/
structure Cell where
  label : String
  requested : Bool
deriving DecidableEq

/-- The cell of `df[d][s]` built by the extraction loops (lines 121-131): iterate
workers in ascending order and overwrite the cell whenever the worker's variable
for this slot is true, labelling with the 1-based worker number. -/
def extractCell (W S : Nat) (req : Requests W S) (a : Assignment W S)
    (d : Fin numDays) (s : Fin S) : Option Cell :=
  (List.finRange W).foldl
    (fun acc n =>
      if a n d s then some ⟨"Worker " ++ toString (n.val + 1), req n d s⟩ else acc)
    none

/-- The extraction step (lines 118-150): the table `df` is populated only when the
status is OPTIMAL (line 119); every other status leaves `df` empty, giving an
empty result. -/
def extract (W S : Nat) (req : Requests W S) :
    SolveResult W S → Option (Fin numDays → Fin S → Option Cell)
  | .Optimal a _ => some (fun d s => extractCell W S req a d s)
  | _ => none

/-- The assignment carried by a successful (Optimal or Feasible) solve outcome,
if any. -/
def successAssignment (W S : Nat) : SolveResult W S → Option (Assignment W S)
  | .Optimal a _ => some a
  | .Feasible a _ => some a
  | _ => none

/-- The best objective value the model admits: the maximum of the objective over
all feasible assignments (0 when the model is infeasible). -/
def bestObjective (W S : Nat) (req : Requests W S) : Nat :=
  (Finset.univ.filter (fun a : Assignment W S => feasible W S a)).sup
    (objective W S req)

/-- Flip the single preference cell (n0, d0, s0) to true, leaving the rest of the
matrix unchanged. -/
def flipCell (W S : Nat) (req : Requests W S) (n0 : Fin W) (d0 : Fin numDays)
    (s0 : Fin S) : Requests W S :=
  fun n d s => if n = n0 ∧ d = d0 ∧ s = s0 then true else req n d s

/-- Round-robin assignment: slot (d, s) goes to worker `(d * S + s) % W`.  Used to
witness feasibility of the model when `S ≤ W`. -/
def rr (W S : Nat) : Assignment W S :=
  fun n d s => decide ((d.val * S + s.val) % W = n.val)

/-- Number of naturals below `m` congruent to `n` modulo `W`. -/
def cnt (W n m : Nat) : Nat :=
  ((Finset.range m).filter (fun t => t % W = n)).card

/-- The all-true assignment on one worker and one shift per day (the unique
feasible assignment for W = S = 1), used as a concrete witness. -/
def aTrue11 : Assignment 1 1 := fun _ _ _ => true

/-- An all-false preference matrix of arbitrary shape. -/
def reqFF (W S : Nat) : Requests W S := fun _ _ _ => false

theorem objective_eq_satisfiedCount (W S : Nat) (req : Requests W S)
    (a : Assignment W S) : objective W S req a = satisfiedCount W S req a := by
  unfold satisfiedCount
  rw [Finset.card_filter]
  rw [Fintype.sum_prod_type]
  unfold objective
  refine Finset.sum_congr rfl (fun n _ => ?_)
  rw [Fintype.sum_prod_type]
  refine Finset.sum_congr rfl (fun d _ => ?_)
  refine Finset.sum_congr rfl (fun s _ => ?_)
  by_cases h1 : req n d s = true <;> by_cases h2 : a n d s = true <;>
    simp [h1, h2]

theorem objective_allFalse (W S : Nat) (req : Requests W S)
    (hreq : ∀ n d s, req n d s = false) (a : Assignment W S) :
    objective W S req a = 0 := by
  unfold objective
  simp [hreq]

theorem feasible_imp_le (W S : Nat) (a : Assignment W S) (h : feasible W S a) :
    S ≤ W := by
  obtain ⟨hcov, hex, _⟩ := h
  have hday : (0 : Nat) < numDays := by norm_num
  have hex1 : ∀ s : Fin S, ∃ n : Fin W, a n ⟨0, hday⟩ s = true := by
    intro s
    have hc := hcov ⟨0, hday⟩ s
    have hpos : 0 < (Finset.univ.filter
        (fun n : Fin W => a n ⟨0, hday⟩ s = true)).card := by omega
    obtain ⟨n, hn⟩ := Finset.card_pos.mp hpos
    exact ⟨n, (Finset.mem_filter.mp hn).2⟩
  choose g hg using hex1
  have hinj : Function.Injective g := by
    intro s1 s2 hgs
    have h1 : s1 ∈ Finset.univ.filter
        (fun s : Fin S => a (g s1) ⟨0, hday⟩ s = true) := by
      simp only [Finset.mem_filter, Finset.mem_univ, true_and]
      exact hg s1
    have h2 : s2 ∈ Finset.univ.filter
        (fun s : Fin S => a (g s1) ⟨0, hday⟩ s = true) := by
      simp only [Finset.mem_filter, Finset.mem_univ, true_and]
      rw [hgs]
      exact hg s2
    exact Finset.card_le_one.mp (hex (g s1) ⟨0, hday⟩) s1 h1 s2 h2
  simpa using Fintype.card_le_of_injective g hinj

theorem cnt_succ (W n m : Nat) :
    cnt W n (m + 1) = cnt W n m + (if m % W = n then 1 else 0) := by
  unfold cnt
  rw [Finset.range_succ, Finset.filter_insert]
  by_cases h : m % W = n
  · rw [if_pos h, if_pos h, Finset.card_insert_of_not_mem (by simp)]
  · rw [if_neg h, if_neg h]
    omega

theorem succ_div_of_mod_lt (W m : Nat) (hW : 0 < W) (h : m % W + 1 < W) :
    (m + 1) / W = m / W ∧ (m + 1) % W = m % W + 1 := by
  have hdm := Nat.div_add_mod m W
  have hm1 : m + 1 = W * (m / W) + (m % W + 1) := by omega
  constructor
  · rw [hm1, Nat.mul_add_div hW, Nat.div_eq_of_lt h]
    omega
  · rw [hm1, Nat.mul_add_mod, Nat.mod_eq_of_lt h]


theorem succ_div_of_mod_eq (W m : Nat) (hW : 0 < W) (h : m % W + 1 = W) :
    (m + 1) / W = m / W + 1 ∧ (m + 1) % W = 0 := by
  have hdm := Nat.div_add_mod m W
  have hm2 : m + 1 = W * (m / W + 1) := by rw [Nat.mul_succ]; omega
  constructor
  · rw [hm2, Nat.mul_div_cancel_left _ hW]
  · rw [hm2, Nat.mul_mod_right]

theorem cnt_formula (W n : Nat) (hW : 0 < W) (hn : n < W) (m : Nat) :
    cnt W n m = m / W + (if n < m % W then 1 else 0) := by
  induction m with
  | zero => simp [cnt]
  | succ m ih =>
    rw [cnt_succ, ih]
    by_cases h : m % W + 1 = W
    · obtain ⟨hd, hm⟩ := succ_div_of_mod_eq W m hW h
      rw [hd, hm]
      split_ifs <;> omega
    · have hmlt : m % W < W := Nat.mod_lt m hW
      have hlt : m % W + 1 < W := by omega
      obtain ⟨hd, hm⟩ := succ_div_of_mod_lt W m hW hlt
      rw [hd, hm]
      split_ifs <;> omega

theorem sum_range_shift (f : Nat → Nat) (m k : Nat) :
    ∑ t ∈ Finset.range (m + k), f t =
      (∑ t ∈ Finset.range m, f t) + ∑ s ∈ Finset.range k, f (m + s) := by
  induction k with
  | zero => simp
  | succ k ih =>
    rw [Nat.add_succ, Finset.sum_range_succ, ih, Finset.sum_range_succ]
    omega

theorem double_sum_cnt (W S n : Nat) (D : Nat) :
    (∑ d ∈ Finset.range D, ∑ s ∈ Finset.range S,
      (if (d * S + s) % W = n then 1 else 0)) = cnt W n (D * S) := by
  have hcnt : ∀ m, cnt W n m =
      ∑ t ∈ Finset.range m, (if t % W = n then 1 else 0) := by
    intro m
    unfold cnt
    rw [Finset.card_filter]
  induction D with
  | zero => simp [cnt]
  | succ D ih =>
    rw [Finset.sum_range_succ, ih, Nat.succ_mul, hcnt, hcnt, sum_range_shift]

theorem rr_coverage (W S : Nat) (hW : 0 < W) : coverage W S (rr W S) := by
  intro d s
  have hx : (d.val * S + s.val) % W < W := Nat.mod_lt _ hW
  have hset : (Finset.univ.filter (fun n : Fin W => rr W S n d s = true)) =
      {⟨(d.val * S + s.val) % W, hx⟩} := by
    ext n
    simp only [Finset.mem_filter, Finset.mem_univ, true_and, Finset.mem_singleton,
      rr, decide_eq_true_eq, Fin.ext_iff]
    omega
  rw [hset, Finset.card_singleton]

theorem rr_exclusivity (W S : Nat) (hSW : S ≤ W) : exclusivity W S (rr W S) := by
  intro n d
  refine Finset.card_le_one.mpr ?_
  intro s1 hs1 s2 hs2
  have h1 : (d.val * S + s1.val) % W = n.val := by
    have := (Finset.mem_filter.mp hs1).2
    simpa only [rr, decide_eq_true_eq] using this
  have h2 : (d.val * S + s2.val) % W = n.val := by
    have := (Finset.mem_filter.mp hs2).2
    simpa only [rr, decide_eq_true_eq] using this
  have hmod : (d.val * S + s1.val) % W = (d.val * S + s2.val) % W := by
    rw [h1, h2]
  have hcong : s1.val % W = s2.val % W :=
    Nat.ModEq.add_left_cancel' (d.val * S) hmod
  have e1 : s1.val % W = s1.val := Nat.mod_eq_of_lt (lt_of_lt_of_le s1.isLt hSW)
  have e2 : s2.val % W = s2.val := Nat.mod_eq_of_lt (lt_of_lt_of_le s2.isLt hSW)
  exact Fin.ext (by omega)

theorem rr_count (W S : Nat) (n : Fin W) :
    numShiftsWorked W S (rr W S) n = cnt W n.val (7 * S) := by
  unfold numShiftsWorked
  have hinner : ∀ d : Fin numDays,
      (∑ s : Fin S, (if rr W S n d s then 1 else 0)) =
        ∑ s ∈ Finset.range S, (if (d.val * S + s) % W = n.val then 1 else 0) := by
    intro d
    have h1 : (∑ s : Fin S, (if rr W S n d s then 1 else 0)) =
        ∑ s : Fin S, (if (d.val * S + s.val) % W = n.val then (1 : Nat) else 0) :=
      Finset.sum_congr rfl (fun s _ => by simp [rr])
    rw [h1]
    exact Fin.sum_univ_eq_sum_range
      (fun s => if (d.val * S + s) % W = n.val then 1 else 0) S
  have h2 : (∑ d : Fin numDays, ∑ s : Fin S, (if rr W S n d s then 1 else 0)) =
      ∑ d : Fin numDays, (∑ s ∈ Finset.range S,
        (if (d.val * S + s) % W = n.val then 1 else 0)) :=
    Finset.sum_congr rfl (fun d _ => hinner d)
  rw [h2]
  have h3 : (∑ d : Fin numDays, (∑ s ∈ Finset.range S,
      (if (d.val * S + s) % W = n.val then 1 else 0))) =
      ∑ d ∈ Finset.range 7, ∑ s ∈ Finset.range S,
        (if (d * S + s) % W = n.val then 1 else 0) :=
    Fin.sum_univ_eq_sum_range
      (fun d => ∑ s ∈ Finset.range S, (if (d * S + s) % W = n.val then 1 else 0)) 7
  rw [h3, double_sum_cnt W S n.val 7]

theorem rr_fairness (W S : Nat) (hW : 0 < W) : fairness W S (rr W S) := by
  intro n
  have hcount : numShiftsWorked W S (rr W S) n =
      7 * S / W + (if n.val < 7 * S % W then 1 else 0) :=
    (rr_count W S n).trans (cnt_formula W n.val hW n.isLt (7 * S))
  have h7 : S * numDays = 7 * S := Nat.mul_comm S 7
  rw [hcount]
  unfold max_shifts_per_worker min_shifts_per_worker
  rw [h7]
  refine ⟨?_, ?_⟩ <;> split_ifs <;> omega

theorem rr_feasible (W S : Nat) (hW : 0 < W) (hSW : S ≤ W) :
    feasible W S (rr W S) :=
  ⟨rr_coverage W S hW, rr_exclusivity W S hSW, rr_fairness W S hW⟩

theorem foldl_cell_none {α β : Type} (p : α → Bool) (f : α → β) (l : List α)
    (h : ∀ x ∈ l, p x = false) (acc : Option β) :
    l.foldl (fun a n => if p n then some (f n) else a) acc = acc := by
  induction l generalizing acc with
  | nil => rfl
  | cons x xs ih =>
    have hx : p x = false := h x (List.mem_cons_self x xs)
    simp only [List.foldl_cons, hx, Bool.false_eq_true, if_false]
    exact ih (fun y hy => h y (List.mem_cons_of_mem x hy)) acc

theorem foldl_cell_unique {α β : Type} (p : α → Bool) (f : α → β) (x0 : α)
    (hp0 : p x0 = true) :
    ∀ (l : List α) (acc : Option β), x0 ∈ l →
      (∀ x ∈ l, p x = true → x = x0) →
      l.foldl (fun a n => if p n then some (f n) else a) acc = some (f x0) := by
  intro l
  induction l with
  | nil =>
    intro acc hmem _
    cases hmem
  | cons x xs ih =>
    intro acc hmem huniq
    by_cases hx0 : x0 ∈ xs
    · simp only [List.foldl_cons]
      exact ih _ hx0 (fun y hy hpy => huniq y (List.mem_cons_of_mem x hy) hpy)
    · have hxeq : x = x0 := by
        rcases List.mem_cons.mp hmem with h | h
        · exact h.symm
        · exact absurd h hx0
      have hall : ∀ y ∈ xs, p y = false := by
        intro y hy
        cases hpy : p y with
        | false => rfl
        | true =>
          exact absurd ((huniq y (List.mem_cons_of_mem x hy) hpy) ▸ hy) hx0
      simp only [List.foldl_cons, hxeq, hp0, if_true]
      exact foldl_cell_none p f xs hall _

theorem extractCell_some (W S : Nat) (req : Requests W S) (a : Assignment W S)
    (d : Fin numDays) (s : Fin S)
    (hcov : (Finset.univ.filter (fun n : Fin W => a n d s = true)).card = 1)
    (n0 : Fin W) (hn0 : a n0 d s = true) :
    extractCell W S req a d s =
      some ⟨"Worker " ++ toString (n0.val + 1), req n0 d s⟩ := by
  obtain ⟨m, hm⟩ := Finset.card_eq_one.mp hcov
  have hmem : ∀ x : Fin W, a x d s = true → x = m := by
    intro x hx
    have hxin : x ∈ Finset.univ.filter (fun n : Fin W => a n d s = true) := by
      simp only [Finset.mem_filter, Finset.mem_univ, true_and]
      exact hx
    rwa [hm, Finset.mem_singleton] at hxin
  have huniq : ∀ x : Fin W, a x d s = true → x = n0 := by
    intro x hx
    rw [hmem x hx, ← hmem n0 hn0]
  unfold extractCell
  exact foldl_cell_unique (fun n => a n d s)
    (fun n : Fin W => (⟨"Worker " ++ toString (n.val + 1), req n d s⟩ : Cell)) n0
    hn0 (List.finRange W) none (List.mem_finRange n0) (fun x _ hx => huniq x hx)

theorem solverOk_optimal_ff (W S : Nat) (a : Assignment W S)
    (hfeas : feasible W S a) :
    solverOk W S (reqFF W S) (SolveResult.Optimal a 0) := by
  refine ⟨hfeas, ?_, ?_⟩
  · rw [objective_allFalse W S (reqFF W S) (fun _ _ _ => rfl) a]
  · intro b _
    rw [objective_allFalse W S (reqFF W S) (fun _ _ _ => rfl) b,
      objective_allFalse W S (reqFF W S) (fun _ _ _ => rfl) a]

/-- C1: for every input (W >= 1, S >= 1, preference matrix) on which the solve
succeeds with an Optimal outcome, the reported objective value equals the number
of assigned (worker, day, shift) triples whose preference cell is true, and no
other assignment satisfying the coverage, exclusivity and fairness constraints
yields a strictly higher count. -/
theorem C1_objective_correctness (W S : Nat) (hW : 1 ≤ W) (hS : 1 ≤ S)
    (req : Requests W S) (a : Assignment W S) (v : Nat)
    (hok : solverOk W S req (SolveResult.Optimal a v)) :
    v = satisfiedCount W S req a ∧
      ∀ b : Assignment W S, feasible W S b →
        satisfiedCount W S req b ≤ satisfiedCount W S req a := by
  obtain ⟨hfeas, hv, hmax⟩ := hok
  constructor
  · rw [hv, objective_eq_satisfiedCount]
  · intro b hb
    have hle := hmax b hb
    rwa [objective_eq_satisfiedCount, objective_eq_satisfiedCount] at hle

theorem C1_witness :
    (1 : Nat) ≤ 1 ∧
      (0 = satisfiedCount 1 1 (reqFF 1 1) aTrue11 ∧
        ∀ b : Assignment 1 1, feasible 1 1 b →
          satisfiedCount 1 1 (reqFF 1 1) b ≤ satisfiedCount 1 1 (reqFF 1 1) aTrue11) :=
  ⟨Nat.le_refl 1,
   C1_objective_correctness 1 1 (Nat.le_refl 1) (Nat.le_refl 1) (reqFF 1 1)
     aTrue11 0 (solverOk_optimal_ff 1 1 aTrue11 (by decide))⟩

/-- C2: for every input for which the solver returns an Optimal result, and for
every (day, shift) pair, exactly one worker is assigned to that slot: the
exactly-one coverage constraint over the W variables sharing the pair holds in
the returned assignment. -/
theorem C2_coverage (W S : Nat) (req : Requests W S) (a : Assignment W S)
    (v : Nat) (hok : solverOk W S req (SolveResult.Optimal a v)) :
    ∀ (d : Fin numDays) (s : Fin S),
      (Finset.univ.filter (fun n : Fin W => a n d s = true)).card = 1 :=
  hok.1.1

theorem C2_witness :
    (Finset.univ.filter (fun n : Fin 1 => aTrue11 n 0 0 = true)).card = 1 :=
  C2_coverage 1 1 (reqFF 1 1) aTrue11 0
    (solverOk_optimal_ff 1 1 aTrue11 (by decide)) 0 0

/-- C3: for every input for which the solver returns a successful (Optimal or
Feasible) result, and for every (worker, day) pair, at most one of that worker's
S variables for that day is true in the assignment: a worker never works two
shifts on the same day. -/
theorem C3_exclusivity (W S : Nat) (req : Requests W S) (res : SolveResult W S)
    (a : Assignment W S) (hok : solverOk W S req res)
    (ha : successAssignment W S res = some a) :
    ∀ (n : Fin W) (d : Fin numDays),
      (Finset.univ.filter (fun s : Fin S => a n d s = true)).card ≤ 1 := by
  cases res with
  | Optimal b v =>
    have hba : b = a := by
      injection ha
    exact hba ▸ hok.1.2.1
  | Feasible b v =>
    have hba : b = a := by
      injection ha
    exact hba ▸ hok.1.2.1
  | Infeasible => exact Option.noConfusion ha
  | Unknown => exact Option.noConfusion ha

theorem C3_witness :
    (Finset.univ.filter (fun s : Fin 1 => aTrue11 0 0 s = true)).card ≤ 1 :=
  C3_exclusivity 1 1 (reqFF 1 1) (SolveResult.Optimal aTrue11 0) aTrue11
    (solverOk_optimal_ff 1 1 aTrue11 (by decide)) rfl 0 0

/-- C4: for every input for which the solver returns a successful (Optimal or
Feasible) result, and for every worker, the total number of shifts assigned to
that worker across the whole week lies in the inclusive interval
[min_shifts_per_worker, max_shifts_per_worker]. -/
theorem C4_fairness_bound (W S : Nat) (req : Requests W S)
    (res : SolveResult W S) (a : Assignment W S) (hok : solverOk W S req res)
    (ha : successAssignment W S res = some a) :
    ∀ n : Fin W, min_shifts_per_worker W S ≤ numShiftsWorked W S a n ∧
      numShiftsWorked W S a n ≤ max_shifts_per_worker W S := by
  cases res with
  | Optimal b v =>
    have hba : b = a := by
      injection ha
    exact hba ▸ hok.1.2.2
  | Feasible b v =>
    have hba : b = a := by
      injection ha
    exact hba ▸ hok.1.2.2
  | Infeasible => exact Option.noConfusion ha
  | Unknown => exact Option.noConfusion ha

theorem C4_witness :
    min_shifts_per_worker 1 1 ≤ numShiftsWorked 1 1 aTrue11 0 ∧
      numShiftsWorked 1 1 aTrue11 0 ≤ max_shifts_per_worker 1 1 :=
  C4_fairness_bound 1 1 (reqFF 1 1) (SolveResult.Optimal aTrue11 0) aTrue11
    (solverOk_optimal_ff 1 1 aTrue11 (by decide)) rfl 0

/-- C5: for every W >= 1 and S >= 1, the fairness bounds are
min_shifts_per_worker = (S * 7) div W (integer floor division) and
max_shifts_per_worker = min when S * 7 is divisible by W, else min + 1; in
particular for W = 2, S = 1 the bounds are min = 3 and max = 4. -/
theorem C5_fairness_bounds (W S : Nat) (hW : 1 ≤ W) (hS : 1 ≤ S) :
    min_shifts_per_worker W S = S * 7 / W ∧
      max_shifts_per_worker W S =
        (if S * 7 % W = 0 then min_shifts_per_worker W S
         else min_shifts_per_worker W S + 1) ∧
      min_shifts_per_worker 2 1 = 3 ∧ max_shifts_per_worker 2 1 = 4 :=
  ⟨rfl, rfl, by decide, by decide⟩

theorem C5_witness :
    min_shifts_per_worker 3 2 = 2 * 7 / 3 ∧
      max_shifts_per_worker 3 2 =
        (if 2 * 7 % 3 = 0 then min_shifts_per_worker 3 2
         else min_shifts_per_worker 3 2 + 1) ∧
      min_shifts_per_worker 2 1 = 3 ∧ max_shifts_per_worker 2 1 = 4 :=
  C5_fairness_bounds 3 2 (by decide) (by decide)

/-- C6 counterexample: the claim quantifies over outcomes whose status is Optimal
or Feasible, but the extraction code populates the table only when the status is
OPTIMAL (line 119).  Here a Feasible outcome satisfies the solver contract, yet
the extractor returns the empty result instead of a populated table. -/
theorem C6_counterexample :
    solverOk 1 1 (reqFF 1 1) (SolveResult.Feasible aTrue11 0) ∧
      extract 1 1 (reqFF 1 1) (SolveResult.Feasible aTrue11 0) = none :=
  ⟨⟨by decide, by decide⟩, rfl⟩

/-- C6 amended: for every solve outcome whose status is Optimal, the extractor
populates the roster table: for each (day, shift) it records the unique worker
whose variable is true, labels the cell with that worker's 1-based label, and
classifies the cell as requested or not by the preference matrix. -/
theorem C6_extract_optimal (W S : Nat) (req : Requests W S) (a : Assignment W S)
    (v : Nat) (hok : solverOk W S req (SolveResult.Optimal a v)) :
    ∃ tbl, extract W S req (SolveResult.Optimal a v) = some tbl ∧
      ∀ (d : Fin numDays) (s : Fin S), ∃ n : Fin W, a n d s = true ∧
        tbl d s = some ⟨"Worker " ++ toString (n.val + 1), req n d s⟩ ∧
        ∀ m : Fin W, a m d s = true → m = n := by
  refine ⟨fun d s => extractCell W S req a d s, rfl, ?_⟩
  intro d s
  obtain ⟨m, hm⟩ := Finset.card_eq_one.mp (hok.1.1 d s)
  have hmem : m ∈ Finset.univ.filter (fun n : Fin W => a n d s = true) := by
    rw [hm]
    exact Finset.mem_singleton_self m
  have ham : a m d s = true := (Finset.mem_filter.mp hmem).2
  refine ⟨m, ham, extractCell_some W S req a d s (hok.1.1 d s) m ham, ?_⟩
  intro x hx
  have hxin : x ∈ Finset.univ.filter (fun n : Fin W => a n d s = true) := by
    simp only [Finset.mem_filter, Finset.mem_univ, true_and]
    exact hx
  rwa [hm, Finset.mem_singleton] at hxin

theorem C6_witness :
    ∃ tbl, extract 1 1 (reqFF 1 1) (SolveResult.Optimal aTrue11 0) = some tbl ∧
      ∀ (d : Fin numDays) (s : Fin 1), ∃ n : Fin 1, aTrue11 n d s = true ∧
        tbl d s = some ⟨"Worker " ++ toString (n.val + 1), reqFF 1 1 n d s⟩ ∧
        ∀ m : Fin 1, aTrue11 m d s = true → m = n :=
  C6_extract_optimal 1 1 (reqFF 1 1) aTrue11 0
    (solverOk_optimal_ff 1 1 aTrue11 (by decide))

/-- C7: for every input whose model is infeasible or whose search is
inconclusive, the result is an explicit empty result (no table, never a
partially filled one); in particular, for W = 2, S = 10 every conclusive
outcome satisfying the solver contract is Infeasible, with the empty result. -/
theorem C7_infeasible_empty :
    (∀ (W S : Nat) (req : Requests W S) (res : SolveResult W S),
        (res = SolveResult.Infeasible ∨ res = SolveResult.Unknown) →
        extract W S req res = none) ∧
    (∀ (req : Requests 2 10) (res : SolveResult 2 10),
        solverOk 2 10 req res → res ≠ SolveResult.Unknown →
        res = SolveResult.Infeasible ∧ extract 2 10 req res = none) := by
  constructor
  · intro W S req res hres
    rcases hres with h | h <;> rw [h] <;> rfl
  · intro req res hok hne
    cases res with
    | Optimal a v => exact absurd (feasible_imp_le 2 10 a hok.1) (by decide)
    | Feasible a v => exact absurd (feasible_imp_le 2 10 a hok.1) (by decide)
    | Infeasible => exact ⟨rfl, rfl⟩
    | Unknown => exact absurd rfl hne

theorem C7_witness :
    extract 2 10 (reqFF 2 10) SolveResult.Infeasible = none ∧
      ((SolveResult.Infeasible : SolveResult 2 10) = SolveResult.Infeasible ∧
        extract 2 10 (reqFF 2 10) SolveResult.Infeasible = none) :=
  ⟨C7_infeasible_empty.1 2 10 (reqFF 2 10) SolveResult.Infeasible (Or.inl rfl),
   C7_infeasible_empty.2 (reqFF 2 10) SolveResult.Infeasible
     (fun b hb => absurd (feasible_imp_le 2 10 b hb) (by decide))
     (fun h => SolveResult.noConfusion h)⟩

/-- C8: for every input and every preference cell whose value is false, flipping
that single cell to true never decreases the optimal objective value achievable
by the model (all other inputs held fixed). -/
theorem C8_monotonicity (W S : Nat) (req : Requests W S) (n0 : Fin W)
    (d0 : Fin numDays) (s0 : Fin S) (hfalse : req n0 d0 s0 = false) :
    bestObjective W S req ≤ bestObjective W S (flipCell W S req n0 d0 s0) := by
  unfold bestObjective
  refine Finset.sup_mono_fun ?_
  intro b _
  unfold objective
  refine Finset.sum_le_sum (fun n _ => ?_)
  refine Finset.sum_le_sum (fun d _ => ?_)
  refine Finset.sum_le_sum (fun s _ => ?_)
  have hreq : (if req n d s then (1 : Nat) else 0) ≤
      (if flipCell W S req n0 d0 s0 n d s then 1 else 0) := by
    simp only [flipCell]
    split_ifs <;> simp_all
  exact Nat.mul_le_mul_right _ hreq

theorem C8_witness :
    reqFF 1 1 0 0 0 = false ∧
      bestObjective 1 1 (reqFF 1 1) ≤
        bestObjective 1 1 (flipCell 1 1 (reqFF 1 1) 0 0 0) :=
  ⟨rfl, C8_monotonicity 1 1 (reqFF 1 1) 0 0 0 rfl⟩

/-- C9 counterexample: W = 1 and S = 2 are valid inputs (both at least 1) with an
all-false preference matrix, yet the model is infeasible (two shifts a day cannot
be covered by one worker working at most one shift a day), so a solve satisfying
the solver contract does not return an Optimal result: the claim that every
valid combination yields Optimal is false. -/
theorem C9_counterexample :
    (1 : Nat) ≥ 1 ∧ (2 : Nat) ≥ 1 ∧
      ¬ (∀ res : SolveResult 1 2, solverOk 1 2 (reqFF 1 2) res →
          ∃ a v, res = SolveResult.Optimal a v) := by
  refine ⟨Nat.le_refl 1, by omega, ?_⟩
  intro hclaim
  obtain ⟨a, v, heq⟩ := hclaim SolveResult.Infeasible
    (fun b hb => absurd (feasible_imp_le 1 2 b hb) (by decide))
  exact SolveResult.noConfusion heq

/-- C9 amended: for every valid W >= 1 and S >= 1 with S <= W (the combinations
whose model is feasible), if every cell of the preference matrix is false then
every conclusive solve outcome satisfying the solver contract (not Feasible, not
Unknown) is Optimal with objective value 0 and a roster in which every
(day, shift) slot is covered. -/
theorem C9_allFalse_optimal (W S : Nat) (hW : 1 ≤ W) (hS : 1 ≤ S) (hSW : S ≤ W)
    (req : Requests W S) (hreq : ∀ n d s, req n d s = false)
    (res : SolveResult W S) (hok : solverOk W S req res)
    (hnf : ∀ a v, res ≠ SolveResult.Feasible a v)
    (hnu : res ≠ SolveResult.Unknown) :
    ∃ a, res = SolveResult.Optimal a 0 ∧ coverage W S a := by
  cases res with
  | Optimal a v =>
    obtain ⟨hfeas, hv, _⟩ := hok
    refine ⟨a, ?_, hfeas.1⟩
    rw [hv, objective_allFalse W S req hreq a]
  | Feasible a v => exact absurd rfl (hnf a v)
  | Infeasible => exact absurd (rr_feasible W S hW hSW) (hok (rr W S))
  | Unknown => exact absurd rfl hnu

theorem C9_witness :
    ∃ a, (SolveResult.Optimal aTrue11 0 : SolveResult 1 1) =
        SolveResult.Optimal a 0 ∧ coverage 1 1 a :=
  C9_allFalse_optimal 1 1 (Nat.le_refl 1) (Nat.le_refl 1) (Nat.le_refl 1)
    (reqFF 1 1) (fun _ _ _ => rfl) (SolveResult.Optimal aTrue11 0)
    (solverOk_optimal_ff 1 1 aTrue11 (by decide))
    (fun a v h => SolveResult.noConfusion h)
    (fun h => SolveResult.noConfusion h)

/-- C10: for every W >= 1 and S >= 1, the constraint model built by run_schedule
(coverage exactly-one, per-day at-most-one, and the per-worker weekly fairness
band) admits a satisfying assignment if and only if S <= W. -/
theorem C10_feasible_iff (W S : Nat) (hW : 1 ≤ W) (hS : 1 ≤ S) :
    (∃ a : Assignment W S, feasible W S a) ↔ S ≤ W :=
  ⟨fun h => feasible_imp_le W S h.choose h.choose_spec,
   fun hSW => ⟨rr W S, rr_feasible W S hW hSW⟩⟩

theorem C10_witness :
    (∃ a : Assignment 1 1, feasible 1 1 a) ↔ 1 ≤ 1 :=
  C10_feasible_iff 1 1 (Nat.le_refl 1) (Nat.le_refl 1)
